import Mathlib

/-!
# Verification of the EigenTrust repository's numerical core

Shallow embedding of the Python sources of the `eigentrust` repository.
Float tensors are embedded as lists of rationals (`List ℚ`); fallible code
returns `Except String`.  Division by zero yields `0` in `ℚ` where the float
code would produce `NaN`/`inf`; each place where this matters is noted.
-/

namespace EigenTrust

/-- A trust vector: embedding of a 1-D float tensor. -/
abbrev Vec := List ℚ

/-- A trust matrix, stored by rows: embedding of a 2-D float tensor. -/
abbrev Mat := List (List ℚ)

/-- Column `j` of a matrix (entries `m[i][j]`, reading `0` out of bounds). -/
def column (m : Mat) (j : ℕ) : Vec := m.map (fun r => r.getD j 0)

/-- Sum of column `j` of a matrix (`matrix.sum(dim=0)[j]` in torch). -/
def colSum (m : Mat) (j : ℕ) : ℚ := (column m j).sum

/-- Number of columns (`shape[1]` of the tensor): length of the first row. -/
def numCols (m : Mat) : ℕ := (m.headD []).length

/-- The shape invariant of an N×N tensor: every row has length `m.length`. -/
def IsSquare (m : Mat) : Prop := ∀ r ∈ m, r.length = m.length

instance (m : Mat) : Decidable (IsSquare m) := List.decidableBAll _ m

/-- All entries of the matrix are non-negative. -/
def EntriesNonneg (m : Mat) : Prop := ∀ r ∈ m, ∀ x ∈ r, 0 ≤ x

instance (m : Mat) : Decidable (EntriesNonneg m) := List.decidableBAll _ m

/-- The vector `column_sums` after `torch.where(column_sums == 0, ones, column_sums)`:
the column sums of the matrix, with zero sums replaced by `1`. -/
def adjustedColSums (matrix : Mat) : Vec :=
  ((List.range (numCols matrix)).map (fun j => colSum matrix j)).map
    (fun s => if s = 0 then 1 else s)

/-- `normalize_columns` from `algorithms/normalization.py`: rejects negative
entries, replaces zero column sums by `1` (so all-zero columns are left
unchanged), and divides every entry by its column's (adjusted) sum. -/
def normalize_columns (matrix : Mat) : Except String Mat :=
  if matrix.any (fun row => row.any (fun x => decide (x < 0))) then
    .error "Trust matrix must contain only non-negative values"
  else
    .ok (matrix.map (fun row => List.zipWith (fun x s => x / s) row (adjustedColSums matrix)))

/-- Result of a convergence check (`ConvergenceStatus` in
`algorithms/convergence.py`).  For the L1 norm, `delta` is the norm itself
(floats embedded as rationals).  For the L2 norm the Python code stores the
float square root `‖diff‖₂`, which is irrational in general; this model stores
its square `‖diff‖₂²` in `delta`, and the theorems below relate
`Real.sqrt delta` to the code's value. -/
structure ConvergenceStatus where
  converged : Bool
  delta : ℚ
deriving Repr, DecidableEq

/-- `check_convergence` from `algorithms/convergence.py`: rejects vectors of
different lengths, computes `diff = t_new - t_old`, its L1 or L2 norm, and
`converged = delta < epsilon`.  In the `"l2"` branch, `delta < epsilon` with
`delta = ‖diff‖₂` is encoded decidably as `0 < epsilon ∧ ‖diff‖₂² < epsilon²`,
which is equivalent (proved in the theorems below). -/
def check_convergence (t_old t_new : Vec) (epsilon : ℚ) (norm_type : String) :
    Except String ConvergenceStatus :=
  if t_old.length ≠ t_new.length then
    .error "Trust vectors must have same size"
  else
    let diff := List.zipWith (fun a b => a - b) t_new t_old
    if norm_type = "l1" then
      let delta := (diff.map (fun x => |x|)).sum
      .ok { converged := decide (delta < epsilon), delta := delta }
    else if norm_type = "l2" then
      let deltaSq := (diff.map (fun x => x ^ 2)).sum
      .ok { converged := decide (0 < epsilon ∧ deltaSq < epsilon ^ 2), delta := deltaSq }
    else
      .error "Invalid norm type"

/-! ## The power-iteration engine (`algorithms/eigentrust.py`) -/

/-- Dot product `Σ uᵢ·vᵢ`. -/
def dot (u v : Vec) : ℚ := (List.zipWith (fun a b => a * b) u v).sum

/-- `torch.matmul(trust_matrix.T, t)`: entry `i` is column `i` of the matrix
dotted with `t`. -/
def matTvec (m : Mat) (t : Vec) : Vec :=
  (List.range (numCols m)).map (fun i => dot (column m i) t)

/-- The damped update before renormalization:
`t_new = (1 - alpha) * trust_propagation + alpha * pre_trust` where
`trust_propagation = torch.matmul(trust_matrix.T, t)`. -/
def etStepRaw (trust_matrix : Mat) (pre_trust : Vec) (alpha : ℚ) (t : Vec) : Vec :=
  List.zipWith (fun a b => a + b)
    ((matTvec trust_matrix t).map (fun x => (1 - alpha) * x))
    (pre_trust.map (fun x => alpha * x))

/-- One body of the `for iteration in range(max_iterations)` loop of
`compute_eigentrust`: the damped update followed by the renormalization
`t_new = t_new / t_new.sum()`.  When `t_new.sum() = 0` the float code produces
NaN entries; in this rational model the division yields `0` entries (both
violate any "sums to 1" property). -/
def etStep (trust_matrix : Mat) (pre_trust : Vec) (alpha : ℚ) (t : Vec) : Vec :=
  (etStepRaw trust_matrix pre_trust alpha t).map
    (fun x => x / (etStepRaw trust_matrix pre_trust alpha t).sum)

/-- The iteration loop of `compute_eigentrust`.  `fuel` is the number of
iterations still allowed; the loop is entered with `fuel = max_iterations`, and
the Python loop variable `iteration` equals `max_iterations - fuel`.  On
convergence it returns `(t_new, iteration + 1, True)`; when the budget is
exhausted it returns `(t, max_iterations, False)`. -/
def etLoop (trust_matrix : Mat) (pre_trust : Vec) (alpha epsilon : ℚ)
    (norm_type : String) (max_iterations : ℕ) :
    Vec → ℕ → Except String (Vec × ℕ × Bool)
  | t, 0 => .ok (t, max_iterations, false)
  | t, fuel + 1 =>
    let t_new := etStep trust_matrix pre_trust alpha t
    match check_convergence t t_new epsilon norm_type with
    | .error e => .error e
    | .ok status =>
      if status.converged then .ok (t_new, max_iterations - fuel, true)
      else etLoop trust_matrix pre_trust alpha epsilon norm_type max_iterations t_new fuel

/-- The pre-trust renormalization at the top of `compute_eigentrust`:
`torch.allclose(pre_trust.sum(), 1.0, atol=1e-6)` is
`|sum - 1| ≤ atol + rtol·|1|` with torch's default `rtol = 1e-5`; when the sum
is outside that tolerance the vector is divided by its sum. -/
def renormalizedPreTrust (pre_trust : Vec) : Vec :=
  if |pre_trust.sum - 1| ≤ 1 / 1000000 + 1 / 100000 then pre_trust
  else pre_trust.map (fun x => x / pre_trust.sum)

/-- `compute_eigentrust` from `algorithms/eigentrust.py`: validates the shape,
renormalizes the pre-trust vector if needed, and runs damped power iteration
starting from `t = pre_trust`. -/
def compute_eigentrust (trust_matrix : Mat) (pre_trust : Vec) (max_iterations : ℕ)
    (epsilon : ℚ) (norm_type : String) (alpha : ℚ) :
    Except String (Vec × ℕ × Bool) :=
  if ¬ IsSquare trust_matrix then .error "Trust matrix must be square"
  else if pre_trust.length ≠ trust_matrix.length then
    .error "Pre-trust vector size must match matrix size"
  else
    etLoop trust_matrix (renormalizedPreTrust pre_trust) alpha epsilon norm_type
      max_iterations (renormalizedPreTrust pre_trust) max_iterations

/-- The sequence of iterates of the engine: `tSeq 0` is the (already
renormalized) pre-trust vector and `tSeq (k+1) = etStep (tSeq k)`. -/
def tSeq (trust_matrix : Mat) (pre_trust : Vec) (alpha : ℚ) : ℕ → Vec
  | 0 => pre_trust
  | k + 1 => etStep trust_matrix pre_trust alpha (tSeq trust_matrix pre_trust alpha k)

/-- Whether the engine's convergence check fires at iteration `k`, i.e. on the
pair `(tSeq k, tSeq (k+1))`. -/
def convergesAt (trust_matrix : Mat) (pre_trust : Vec) (alpha epsilon : ℚ)
    (norm_type : String) (k : ℕ) : Bool :=
  match check_convergence (tSeq trust_matrix pre_trust alpha k)
      (tSeq trust_matrix pre_trust alpha (k + 1)) epsilon norm_type with
  | .ok status => status.converged
  | .error _ => false

/-! ## Domain model (`domain/__init__.py`, `peer.py`, `interaction.py`) -/

/-- `InteractionOutcome` enum. -/
inductive InteractionOutcome where
  | SUCCESS
  | FAILURE
deriving Repr, DecidableEq

/-- `Interaction` value object (`domain/interaction.py`), restricted to the
fields the algorithms read (`interaction_id` and `timestamp` never influence
trust computation). -/
structure Interaction where
  source_peer_id : String
  target_peer_id : String
  outcome : InteractionOutcome
deriving Repr, DecidableEq

/-- `Peer` entity (`domain/peer.py`): identity, behavioural parameters, the
optional computed global trust, and the local-trust mapping (a Python dict,
embedded as an association list whose keys are distinct). -/
structure Peer where
  peer_id : String
  competence : ℚ
  maliciousness : ℚ
  global_trust : Option ℚ
  local_trust : List (String × ℚ)
deriving Repr, DecidableEq

instance : Inhabited Peer := ⟨⟨"", 0, 0, none, []⟩⟩

/-- `TrustScores` value object (`domain/__init__.py`).  The `history` field is
omitted: it is carried opaquely and takes no part in any validation. -/
structure TrustScores where
  scores : List (String × ℚ)
  iteration_count : ℕ
  converged : Bool
  convergence_epsilon : ℚ
  final_delta : ℚ
deriving Repr, DecidableEq

/-- `TrustScores.__init__`: the validation sequence of the constructor, in
source order: scores must sum to 1 within 1e-6, no score may be negative, and
`converged` requires `final_delta < convergence_epsilon`. -/
def TrustScores.make (scores : List (String × ℚ)) (iteration_count : ℕ)
    (converged : Bool) (convergence_epsilon final_delta : ℚ) :
    Except String TrustScores :=
  if |(scores.map Prod.snd).sum - 1| > 1 / 1000000 then
    .error "Global trust scores must sum to 1.0"
  else if scores.any (fun p => decide (p.2 < 0)) then
    .error "All trust scores must be non-negative"
  else if converged && decide (convergence_epsilon ≤ final_delta) then
    .error "Convergence inconsistency: marked converged but delta >= epsilon"
  else
    .ok { scores := scores, iteration_count := iteration_count,
          converged := converged, convergence_epsilon := convergence_epsilon,
          final_delta := final_delta }

/-- `TrustMatrix.normalize_columns` (`domain/trust_matrix.py`), acting on the
stored matrix (the id→index mapping plays no part in it).  Same zero-column
adjustment as the free function, but afterwards it verifies with
`torch.allclose(new_col_sums, ones, atol=1e-6)` (default `rtol = 1e-5`, so the
per-column tolerance is `1e-6 + 1e-5`) that every column sums to 1, raising
`ValueError` otherwise.  The stored matrix is non-negative by the
`TrustMatrix.__init__` validation, so no negativity check appears here. -/
def TrustMatrix.normalize_columns (m : Mat) : Except String Mat :=
  let normalized := m.map (fun row => List.zipWith (fun x s => x / s) row (adjustedColSums m))
  if (List.range (numCols m)).all
      (fun j => decide (|colSum normalized j - 1| ≤ 1 / 1000000 + 1 / 100000)) then
    .ok normalized
  else
    .error "Matrix normalization failed: columns do not sum to 1.0"

/-! ## The simulation aggregate (`domain/simulation.py`) -/

/-- `SimulationState` enum. -/
inductive SimulationState where
  | CREATED
  | RUNNING
  | COMPLETED
  | FAILED
deriving Repr, DecidableEq

/-- `Simulation` aggregate: the fields the algorithm run reads and writes. -/
structure Simulation where
  state : SimulationState
  peers : List Peer
  interactions : List Interaction
deriving Repr, DecidableEq

/-- `Simulation.add_interaction`: raises `OrphanInteractionError` when the
interaction's source or target id is not among the simulation's peers
(source checked first), otherwise appends the interaction. -/
def Simulation.add_interaction (sim : Simulation) (interaction : Interaction) :
    Except String Simulation :=
  let peer_ids := sim.peers.map Peer.peer_id
  if interaction.source_peer_id ∉ peer_ids then
    .error "Source peer not in simulation"
  else if interaction.target_peer_id ∉ peer_ids then
    .error "Target peer not in simulation"
  else
    .ok { sim with interactions := sim.interactions ++ [interaction] }

/-- Interactions whose source is `pid` (`peer_interactions` in the Python). -/
def peerInteractions (interactions : List Interaction) (pid : String) : List Interaction :=
  interactions.filter (fun i => decide (i.source_peer_id = pid))

/-- The distinct targets of `l`: the keys of the `interaction_counts` dict. -/
def targetsOf (l : List Interaction) : List String :=
  (l.map Interaction.target_peer_id).dedup

/-- Number of successful interactions of `l` toward `target`
(`interaction_counts[target]["success"]`). -/
def successCount (l : List Interaction) (target : String) : ℕ :=
  (l.filter (fun i =>
    decide (i.target_peer_id = target ∧ i.outcome = InteractionOutcome.SUCCESS))).length

/-- Number of interactions of `l` toward `target` (`success + failure`). -/
def totalCount (l : List Interaction) (target : String) : ℕ :=
  (l.filter (fun i => decide (i.target_peer_id = target))).length

/-- Per-target success rate `successes / (successes + failures)`. -/
def successRate (l : List Interaction) (target : String) : ℚ :=
  (successCount l target : ℚ) / (totalCount l target : ℚ)

/-- `Simulation._update_peer_local_trust_from_interactions`: the local-trust
mapping the Python assigns to `peer.local_trust` (returned here instead of
mutated).  No interactions → uniform `1/(N-1)` over the other peers (or no
change when there is no other peer); otherwise per-target success rates,
normalized to sum 1 when their sum is positive, else (all failures) uniform
over the interacted targets. -/
def update_local_trust_from_interactions (peer : Peer) (peers : List Peer)
    (interactions : List Interaction) : List (String × ℚ) :=
  let peer_interactions := peerInteractions interactions peer.peer_id
  if peer_interactions = [] then
    let other_peers := peers.filter (fun p => decide (p.peer_id ≠ peer.peer_id))
    if other_peers = [] then peer.local_trust
    else other_peers.map (fun p => (p.peer_id, (1 : ℚ) / other_peers.length))
  else
    let local_trust := (targetsOf peer_interactions).map
      (fun t => (t, successRate peer_interactions t))
    let total_trust := (local_trust.map Prod.snd).sum
    if 0 < total_trust then
      local_trust.map (fun e => (e.1, e.2 / total_trust))
    else
      local_trust.map (fun e => (e.1, (1 : ℚ) / local_trust.length))

/-- Row `i` of the trust matrix in `_build_trust_matrix`: starting from a zero
row, each local-trust entry whose target id is in the peer mapping is written
at its column (`matrix[i, j] = trust_value`); entries whose target id is
unknown are silently skipped by the `if peer_j_id in peer_mapping` guard. -/
def buildRow (n : ℕ) (idIndex : String → Option ℕ) (entries : List (String × ℚ)) : Vec :=
  entries.foldl (fun row e =>
    match idIndex e.1 with
    | some j => row.set j e.2
    | none => row) (List.replicate n 0)

/-- The `peer_mapping` dict `peer_id → index` as a function (index of the
first peer with the given id; peer ids are distinct in any valid simulation,
and `TrustMatrix.__init__` rejects the mapping otherwise). -/
def idIndexOf (peers : List Peer) (pid : String) : Option ℕ :=
  match peers with
  | [] => none
  | p :: rest => if p.peer_id = pid then some 0 else (idIndexOf rest pid).map (· + 1)

/-- `Simulation._build_trust_matrix`: peers without local trust get it
initialized from the interaction history, then row `i` is filled from peer
`i`'s local-trust mapping.  Returns the updated peers and the matrix.  The
`TrustMatrix.__init__` validations that can fail here (non-negative entries;
mapping size equal to the dimension, i.e. distinct peer ids) are included;
squareness holds by construction. -/
def build_trust_matrix (peers : List Peer) (interactions : List Interaction) :
    Except String (List Peer × Mat) :=
  let updated := peers.map (fun p =>
    if p.local_trust = [] then
      { p with local_trust := update_local_trust_from_interactions p peers interactions }
    else p)
  let matrix := updated.map (fun p => buildRow peers.length (idIndexOf peers) p.local_trust)
  if ¬ EntriesNonneg matrix then
    .error "Trust matrix must contain only non-negative values"
  else if ¬ (peers.map Peer.peer_id).Nodup then
    .error "Peer mapping size must match matrix dimensions"
  else
    .ok (updated, matrix)

/-- `Simulation.run_algorithm` (`domain/simulation.py`), with the engine's
defaults `norm_type = "l1"` and `alpha = 0.15`: requires at least 2 peers
(raising `InsufficientPeersError` with the state unchanged), transitions to
RUNNING, builds the trust matrix, column-normalizes it, runs the engine with
the uniform pre-trust vector, writes the resulting scores onto each peer's
`global_trust`, computes `final_delta` as the check between the PRE-TRUST
vector and the final vector when `iterations > 1` and as the constant `1.0`
otherwise, constructs the validated `TrustScores`, and transitions to
COMPLETED; any error instead transitions to FAILED and propagates. -/
def Simulation.run_algorithm (sim : Simulation) (max_iterations : ℕ) (epsilon : ℚ) :
    Simulation × Except String TrustScores :=
  if sim.peers.length < 2 then
    (sim, .error "At least 2 peers required to run algorithm")
  else
    let running := { sim with state := SimulationState.RUNNING }
    let result : Except String (List Peer × TrustScores) :=
      match build_trust_matrix running.peers running.interactions with
      | .error e => .error e
      | .ok (updated, matrix) =>
        match normalize_columns matrix with
        | .error e => .error e
        | .ok normalized =>
          match compute_eigentrust normalized
              (List.replicate running.peers.length ((1 : ℚ) / running.peers.length))
              max_iterations epsilon "l1" (15 / 100) with
          | .error e => .error e
          | .ok (t, iterations, converged) =>
            let scores := updated.enum.map (fun e => (e.2.peer_id, t.getD e.1 0))
            let withScores := updated.map
              (fun p => { p with global_trust := scores.lookup p.peer_id })
            match (if 1 < iterations then
                (check_convergence
                  (List.replicate running.peers.length ((1 : ℚ) / running.peers.length))
                  t epsilon "l1").map ConvergenceStatus.delta
              else (.ok 1 : Except String ℚ)) with
            | .error e => .error e
            | .ok final_delta =>
              match TrustScores.make scores iterations converged epsilon final_delta with
              | .error e => .error e
              | .ok ts => .ok (withScores, ts)
    match result with
    | .ok (peers', ts) =>
      ({ running with peers := peers', state := SimulationState.COMPLETED }, .ok ts)
    | .error e => ({ running with state := SimulationState.FAILED }, .error e)

/-! ## The interaction simulator (`simulation/interactions.py`) -/

/-- An abstract deterministic embedding of Python's global `random` module: a
state type `S` with the operations the interaction simulator calls, each
deterministically consuming and returning the state.  `seed` embeds
`random.seed(k)` (which discards the previous generator state entirely);
`choiceIdx s n` embeds the index drawn by `random.choice` from a list of
length `n`; `choicesIdx` the index drawn by `random.choices(weights=...)`;
`gauss` embeds `random.gauss(0, 0.05)` and `uniform01` embeds
`random.random()`. -/
structure RandomGen (S : Type) where
  seed : Int → S
  choiceIdx : S → ℕ → ℕ × S
  choicesIdx : S → List ℚ → ℕ × S
  gauss : S → ℚ × S
  uniform01 : S → ℚ × S

/-- `compute_interaction_outcome` from `simulation/interactions.py`: success
probability `(1 - peer.competence) * (1 - peer.maliciousness)` plus Gaussian
noise, clamped to `[0, 1]`, compared with a uniform draw.  (`partner` is
unused, exactly as in the source.) -/
def compute_interaction_outcome {S : Type} (g : RandomGen S) (peer _partner : Peer)
    (s : S) : InteractionOutcome × S :=
  let technical_success := 1 - peer.competence
  let cooperation_factor := 1 - peer.maliciousness
  let base_prob := technical_success * cooperation_factor
  let (noise, s) := g.gauss s
  let final_prob := max 0 (min 1 (base_prob + noise))
  let (u, s) := g.uniform01 s
  (if u < final_prob then InteractionOutcome.SUCCESS else InteractionOutcome.FAILURE, s)

/-- `peer_success_counts[pid]` (keys are always present: they are seeded from
the peer list). -/
def lookupCount (counts : List (String × ℕ)) (pid : String) : ℕ :=
  (counts.lookup pid).getD 0

/-- `peer_success_counts[target.peer_id] += 1`. -/
def bumpCount (counts : List (String × ℕ)) (pid : String) : List (String × ℕ) :=
  counts.map (fun e => if e.1 = pid then (e.1, e.2 + 1) else e)

/-- One body of the `for _ in range(num_interactions)` loop of
`simulate_interactions`: select the source uniformly, the target either by
preferential attachment over success counts or uniformly, compute the outcome
from the target's characteristics, update the success counts on SUCCESS, and
record the `(source, target, outcome)` triple. -/
def simStep {S : Type} (g : RandomGen S) (peers : List Peer)
    (use_pref : Bool)
    (acc : List (String × String × InteractionOutcome) × List (String × ℕ) × S) :
    List (String × String × InteractionOutcome) × List (String × ℕ) × S :=
  let (acts, counts, s) := acc
  let (i, s) := g.choiceIdx s peers.length
  let source := peers.getD i default
  let available_targets := peers.filter (fun p => decide (p.peer_id ≠ source.peer_id))
  let (target, s) :=
    if use_pref then
      let weights := available_targets.map (fun p => (lookupCount counts p.peer_id : ℚ))
      let total_weight := weights.sum
      if 0 < total_weight then
        let probabilities := weights.map (fun w => w / total_weight)
        let (j, s) := g.choicesIdx s probabilities
        (available_targets.getD j default, s)
      else
        let (j, s) := g.choiceIdx s available_targets.length
        (available_targets.getD j default, s)
    else
      let (j, s) := g.choiceIdx s available_targets.length
      (available_targets.getD j default, s)
  let (outcome, s) := compute_interaction_outcome g target source s
  let counts :=
    if outcome = InteractionOutcome.SUCCESS then bumpCount counts target.peer_id else counts
  (acts ++ [(source.peer_id, target.peer_id, outcome)], counts, s)

/-- `simulate_interactions` from `simulation/interactions.py`, returning the
`(source, target, outcome)` triples of the produced `Interaction` records
(their ids/timestamps are fresh and irrelevant) together with the final
generator state.  A non-None `seed` re-seeds the generator before the loop;
the success counts are seeded at 1 for every peer. -/
def simulate_interactions {S : Type} (g : RandomGen S) (peers : List Peer)
    (num_interactions : ℕ) (seed : Option Int) (use_pref : Bool) (s₀ : S) :
    Except String (List (String × String × InteractionOutcome) × S) :=
  if peers.length < 2 then .error "Need at least 2 peers to simulate interactions"
  else
    let s₁ := match seed with
      | some k => g.seed k
      | none => s₀
    let init_counts := peers.map (fun p => (p.peer_id, 1))
    let final := (List.range num_interactions).foldl
      (fun acc _ => simStep g peers use_pref acc) ([], init_counts, s₁)
    .ok (final.1, final.2.2)

/-- A concrete linear-congruential instantiation of the abstract random
interface, used to instantiate theorems about the simulator at concrete
inputs. -/
def lcgGen : RandomGen ℕ where
  seed := fun k => k.natAbs
  choiceIdx := fun s n => (s % max n 1, s * 1103515245 + 12345)
  choicesIdx := fun s w => (s % max w.length 1, s * 69069 + 1)
  gauss := fun s => ((((s % 7 : ℕ) : ℚ) - 3) / 100, s + 101)
  uniform01 := fun s => (((s % 97 : ℕ) : ℚ) / 97, s * 48271 + 11)

/-! ## Basic list lemmas used throughout -/

theorem getD_zipWith {f : ℚ → ℚ → ℚ} {a b : List ℚ} {j : ℕ}
    (h1 : j < a.length) (h2 : j < b.length) :
    (List.zipWith f a b).getD j 0 = f (a.getD j 0) (b.getD j 0) := by
  rw [List.getD_eq_getElem _ _ (by simp [List.length_zipWith]; omega),
    List.getD_eq_getElem _ _ h1, List.getD_eq_getElem _ _ h2]
  exact List.getElem_zipWith ..

theorem sum_map_div (l : List ℚ) (c : ℚ) :
    (l.map (fun x => x / c)).sum = l.sum / c := by
  induction l with
  | nil => simp
  | cons x xs ih => simp [ih, add_div]

theorem sum_map_mul (a : ℚ) (l : List ℚ) :
    (l.map (fun x => a * x)).sum = a * l.sum := by
  induction l with
  | nil => simp
  | cons x xs ih => simp [ih, mul_add]

theorem sum_zipWith_add (a b : List ℚ) (h : a.length = b.length) :
    (List.zipWith (fun x y => x + y) a b).sum = a.sum + b.sum :=
  (List.sum_add_sum_eq_sum_zipWith_of_length_eq a b h).symm

theorem all_zero_of_nonneg_sum_zero {l : List ℚ} (h : ∀ x ∈ l, 0 ≤ x)
    (hs : l.sum = 0) : ∀ x ∈ l, x = 0 :=
  fun x hx => List.all_zero_of_le_zero_le_of_sum_eq_zero h hs hx

theorem numCols_eq_length {m : Mat} (hsq : IsSquare m) : numCols m = m.length := by
  cases m with
  | nil => rfl
  | cons r rs => exact hsq r (by simp)

/-! ## Properties of `normalize_columns` -/

theorem length_adjustedColSums (m : Mat) : (adjustedColSums m).length = numCols m := by
  simp [adjustedColSums]

theorem adjustedColSums_getD (m : Mat) {j : ℕ} (h : j < numCols m) :
    (adjustedColSums m).getD j 0 = if colSum m j = 0 then 1 else colSum m j := by
  have hl : j < (adjustedColSums m).length := by simpa [length_adjustedColSums] using h
  rw [List.getD_eq_getElem _ _ hl]
  simp [adjustedColSums, h]

theorem column_map_zipWith_div {m : Mat} (hsq : IsSquare m) {j : ℕ} (hj : j < m.length) :
    column (m.map (fun row => List.zipWith (fun x s => x / s) row (adjustedColSums m))) j
      = (column m j).map (fun x => x / (adjustedColSums m).getD j 0) := by
  unfold column
  rw [List.map_map, List.map_map]
  refine List.map_congr_left (fun r hr => ?_)
  have h1 : j < r.length := by rw [hsq r hr]; exact hj
  have h2 : j < (adjustedColSums m).length := by
    rw [length_adjustedColSums, numCols_eq_length hsq]; exact hj
  exact getD_zipWith h1 h2

theorem normalize_columns_guard_eq_false {m : Mat} (hn : EntriesNonneg m) :
    m.any (fun row => row.any (fun x => decide (x < 0))) = false := by
  rw [Bool.eq_false_iff]
  intro hc
  simp only [List.any_eq_true, decide_eq_true_eq] at hc
  obtain ⟨r, hr, x, hx, hneg⟩ := hc
  exact absurd (hn r hr x hx) (not_le.mpr hneg)

/-- Claim C2: on a non-negative square matrix, `normalize_columns` returns a
matrix of the same shape whose originally-positive columns sum exactly to 1
(hence within 1e-6) and whose originally-zero columns are still entirely zero;
a matrix with a negative entry yields a validation error. -/
theorem C2_normalize_columns (m : Mat) (hsq : IsSquare m) :
    (EntriesNonneg m →
      ∃ m', normalize_columns m = .ok m' ∧
        m'.length = m.length ∧ (∀ r ∈ m', r.length = m.length) ∧
        (∀ j, j < m.length → 0 < colSum m j →
          colSum m' j = 1 ∧ |colSum m' j - 1| ≤ 1 / 1000000) ∧
        (∀ j, j < m.length → colSum m j = 0 → ∀ x ∈ column m' j, x = 0)) ∧
    (¬ EntriesNonneg m → ∃ e, normalize_columns m = .error e) := by
  constructor
  · intro hn
    refine ⟨m.map (fun row => List.zipWith (fun x s => x / s) row (adjustedColSums m)),
      ?_, by simp, ?_, ?_, ?_⟩
    · unfold normalize_columns
      rw [if_neg (by rw [normalize_columns_guard_eq_false hn]; exact Bool.false_ne_true)]
    · intro r hr
      simp only [List.mem_map] at hr
      obtain ⟨r₀, hr₀, rfl⟩ := hr
      rw [List.length_zipWith, hsq r₀ hr₀, length_adjustedColSums, numCols_eq_length hsq,
        min_self]
    · intro j hj hpos
      have hcol := column_map_zipWith_div hsq hj
      have hadj : (adjustedColSums m).getD j 0 = colSum m j := by
        rw [adjustedColSums_getD m (by rwa [numCols_eq_length hsq])]
        exact if_neg (by exact ne_of_gt hpos)
      have : colSum (m.map (fun row => List.zipWith (fun x s => x / s) row
          (adjustedColSums m))) j = 1 := by
        unfold colSum
        rw [hcol, hadj, sum_map_div]
        exact div_self (ne_of_gt hpos)
      exact ⟨this, by rw [this]; norm_num⟩
    · intro j hj hzero x hx
      have hcol := column_map_zipWith_div hsq hj
      have hadj : (adjustedColSums m).getD j 0 = 1 := by
        rw [adjustedColSums_getD m (by rwa [numCols_eq_length hsq])]
        exact if_pos hzero
      rw [hcol, hadj] at hx
      simp only [div_one, List.map_id'] at hx
      have hnonneg : ∀ y ∈ column m j, 0 ≤ y := by
        intro y hy
        simp only [column, List.mem_map] at hy
        obtain ⟨r, hr, rfl⟩ := hy
        rcases Nat.lt_or_ge j r.length with hlt | hge
        · rw [List.getD_eq_getElem _ _ hlt]
          exact hn r hr _ (List.getElem_mem hlt)
        · rw [List.getD_eq_default _ _ hge]
      exact all_zero_of_nonneg_sum_zero hnonneg hzero x hx
  · intro hn
    refine ⟨"Trust matrix must contain only non-negative values", ?_⟩
    unfold normalize_columns
    rw [if_pos]
    simp only [List.any_eq_true, decide_eq_true_eq]
    unfold EntriesNonneg at hn
    push_neg at hn
    obtain ⟨r, hr, x, hx, hneg⟩ := hn
    exact ⟨r, hr, x, hx, hneg⟩

/-- Witness for C2 at the concrete matrix `[[1,0],[3,0]]` (column 0 positive,
column 1 all-zero). -/
theorem C2_witness :
    (EntriesNonneg [[(1 : ℚ), 0], [3, 0]] →
      ∃ m', normalize_columns [[(1 : ℚ), 0], [3, 0]] = .ok m' ∧
        m'.length = 2 ∧ (∀ r ∈ m', r.length = 2) ∧
        (∀ j, j < 2 → 0 < colSum [[(1 : ℚ), 0], [3, 0]] j →
          colSum m' j = 1 ∧ |colSum m' j - 1| ≤ 1 / 1000000) ∧
        (∀ j, j < 2 → colSum [[(1 : ℚ), 0], [3, 0]] j = 0 →
          ∀ x ∈ column m' j, x = 0)) ∧
    (¬ EntriesNonneg [[(1 : ℚ), 0], [3, 0]] →
      ∃ e, normalize_columns [[(1 : ℚ), 0], [3, 0]] = .error e) :=
  C2_normalize_columns [[(1 : ℚ), 0], [3, 0]] (by decide)

/-! ## Behaviour of the engine loop -/

theorem check_convergence_ok {a b : Vec} (epsilon : ℚ) {nt : String}
    (hlen : a.length = b.length) (hnt : nt = "l1" ∨ nt = "l2") :
    ∃ st, check_convergence a b epsilon nt = .ok st := by
  unfold check_convergence
  rw [if_neg (by omega)]
  rcases hnt with rfl | rfl
  · exact ⟨_, rfl⟩
  · exact ⟨_, rfl⟩

theorem convergesAt_eq_of_check {C : Mat} {p : Vec} {alpha epsilon : ℚ} {nt : String}
    {k : ℕ} {st : ConvergenceStatus}
    (h : check_convergence (tSeq C p alpha k) (tSeq C p alpha (k + 1)) epsilon nt = .ok st) :
    convergesAt C p alpha epsilon nt k = st.converged := by
  unfold convergesAt
  rw [h]

theorem etStep_length (C : Mat) (p : Vec) (alpha : ℚ) (t : Vec) :
    (etStep C p alpha t).length = min (numCols C) p.length := by
  simp [etStep, etStepRaw, matTvec, List.length_zipWith]

theorem tSeq_length {C : Mat} {p : Vec} (alpha : ℚ) (hsq : IsSquare C)
    (hlen : p.length = C.length) :
    ∀ k, (tSeq C p alpha k).length = C.length
  | 0 => hlen
  | k + 1 => by
    show (etStep C p alpha (tSeq C p alpha k)).length = C.length
    rw [etStep_length, numCols_eq_length hsq, hlen, min_self]

theorem etLoop_no_conv (C : Mat) (p : Vec) (alpha epsilon : ℚ) (nt : String)
    (maxIter : ℕ) (hnt : nt = "l1" ∨ nt = "l2")
    (hlen : ∀ k, (tSeq C p alpha k).length = (tSeq C p alpha (k + 1)).length) :
    ∀ (fuel j : ℕ), j + fuel = maxIter →
      (∀ i, j ≤ i → i < maxIter → convergesAt C p alpha epsilon nt i = false) →
      etLoop C p alpha epsilon nt maxIter (tSeq C p alpha j) fuel =
        .ok (tSeq C p alpha maxIter, maxIter, false) := by
  intro fuel
  induction fuel with
  | zero =>
    intro j hj _
    have hjm : j = maxIter := by omega
    rw [hjm]
    rfl
  | succ f ih =>
    intro j hj hnc
    obtain ⟨st, hst⟩ := check_convergence_ok (a := tSeq C p alpha j)
      (b := tSeq C p alpha (j + 1)) epsilon (hlen j) hnt
    have hfalse : st.converged = false := by
      rw [← convergesAt_eq_of_check hst]
      exact hnc j le_rfl (by omega)
    show etLoop C p alpha epsilon nt maxIter (tSeq C p alpha j) (f + 1) = _
    rw [etLoop]
    have hstep : etStep C p alpha (tSeq C p alpha j) = tSeq C p alpha (j + 1) := rfl
    rw [hstep, hst]
    simp only [hfalse, Bool.false_eq_true, if_false]
    exact ih (j + 1) (by omega) (fun i h1 h2 => hnc i (by omega) h2)

theorem etLoop_conv (C : Mat) (p : Vec) (alpha epsilon : ℚ) (nt : String)
    (maxIter : ℕ) (hnt : nt = "l1" ∨ nt = "l2")
    (hlen : ∀ k, (tSeq C p alpha k).length = (tSeq C p alpha (k + 1)).length) :
    ∀ (fuel j : ℕ), j + fuel = maxIter →
      ∀ k, j ≤ k → k < maxIter → convergesAt C p alpha epsilon nt k = true →
      (∀ i, j ≤ i → i < k → convergesAt C p alpha epsilon nt i = false) →
      etLoop C p alpha epsilon nt maxIter (tSeq C p alpha j) fuel =
        .ok (tSeq C p alpha (k + 1), k + 1, true) := by
  intro fuel
  induction fuel with
  | zero =>
    intro j hj k hjk hk _ _
    omega
  | succ f ih =>
    intro j hj k hjk hk hconv hmin
    obtain ⟨st, hst⟩ := check_convergence_ok (a := tSeq C p alpha j)
      (b := tSeq C p alpha (j + 1)) epsilon (hlen j) hnt
    show etLoop C p alpha epsilon nt maxIter (tSeq C p alpha j) (f + 1) = _
    rw [etLoop]
    have hstep : etStep C p alpha (tSeq C p alpha j) = tSeq C p alpha (j + 1) := rfl
    rw [hstep, hst]
    rcases Nat.eq_or_lt_of_le hjk with hjeq | hjlt
    · have htrue : st.converged = true := by
        rw [← convergesAt_eq_of_check hst, hjeq]
        exact hconv
      simp only [htrue, if_true]
      have : maxIter - f = k + 1 := by omega
      rw [this, ← hjeq]
    · have hfalse : st.converged = false := by
        rw [← convergesAt_eq_of_check hst]
        exact hmin j le_rfl hjlt
      simp only [hfalse, Bool.false_eq_true, if_false]
      exact ih (j + 1) (by omega) k (by omega) hk hconv
        (fun i h1 h2 => hmin i (by omega) h2)

theorem etLoop_iters_le (C : Mat) (p : Vec) (alpha epsilon : ℚ) (nt : String)
    (maxIter : ℕ) :
    ∀ (fuel : ℕ) (t : Vec) (r : Vec × ℕ × Bool),
      etLoop C p alpha epsilon nt maxIter t fuel = .ok r → r.2.1 ≤ maxIter := by
  intro fuel
  induction fuel with
  | zero =>
    intro t r hr
    cases hr
    simp
  | succ f ih =>
    intro t r hr
    rw [etLoop] at hr
    cases hck : check_convergence t (etStep C p alpha t) epsilon nt with
    | error e => rw [hck] at hr; cases hr
    | ok st =>
      rw [hck] at hr
      dsimp only at hr
      by_cases hc : st.converged = true
      · rw [if_pos hc] at hr
        cases hr
        simp only
        omega
      · rw [if_neg hc] at hr
        exact ih _ r hr

/-- Claim C3: for every square matrix, matching pre-trust vector and valid
norm selector, `compute_eigentrust` returns `(t_(k+1), k+1, True)` at the
first iteration `k` whose convergence check on `(t_k, t_(k+1))` fires; if no
iteration among the first `max_iterations` converges it returns
`(t_(max_iterations), max_iterations, False)` normally; and the returned
iteration count never exceeds `max_iterations`. -/
theorem C3_compute_eigentrust (C : Mat) (p : Vec) (maxIter : ℕ) (epsilon : ℚ)
    (nt : String) (alpha : ℚ) (hsq : IsSquare C) (hplen : p.length = C.length)
    (hnt : nt = "l1" ∨ nt = "l2") :
    (∀ k, k < maxIter →
      convergesAt C (renormalizedPreTrust p) alpha epsilon nt k = true →
      (∀ i, i < k → convergesAt C (renormalizedPreTrust p) alpha epsilon nt i = false) →
      compute_eigentrust C p maxIter epsilon nt alpha =
        .ok (tSeq C (renormalizedPreTrust p) alpha (k + 1), k + 1, true)) ∧
    ((∀ i, i < maxIter → convergesAt C (renormalizedPreTrust p) alpha epsilon nt i = false) →
      compute_eigentrust C p maxIter epsilon nt alpha =
        .ok (tSeq C (renormalizedPreTrust p) alpha maxIter, maxIter, false)) ∧
    (∀ t iters c, compute_eigentrust C p maxIter epsilon nt alpha = .ok (t, iters, c) →
      iters ≤ maxIter) := by
  have hplen' : (renormalizedPreTrust p).length = C.length := by
    unfold renormalizedPreTrust
    by_cases h : |p.sum - 1| ≤ 1 / 1000000 + 1 / 100000
    · rw [if_pos h]; exact hplen
    · rw [if_neg h]; simpa using hplen
  have hlen : ∀ k, (tSeq C (renormalizedPreTrust p) alpha k).length =
      (tSeq C (renormalizedPreTrust p) alpha (k + 1)).length := by
    intro k
    rw [tSeq_length alpha hsq hplen', tSeq_length alpha hsq hplen']
  have hcompute : compute_eigentrust C p maxIter epsilon nt alpha =
      etLoop C (renormalizedPreTrust p) alpha epsilon nt maxIter
        (renormalizedPreTrust p) maxIter := by
    unfold compute_eigentrust
    rw [if_neg (not_not_intro hsq), if_neg (by omega)]
  refine ⟨?_, ?_, ?_⟩
  · intro k hk hconv hmin
    rw [hcompute]
    exact etLoop_conv C (renormalizedPreTrust p) alpha epsilon nt maxIter hnt hlen
      maxIter 0 (by omega) k (by omega) hk hconv (fun i _ h2 => hmin i h2)
  · intro hnone
    rw [hcompute]
    exact etLoop_no_conv C (renormalizedPreTrust p) alpha epsilon nt maxIter hnt hlen
      maxIter 0 (by omega) (fun i _ h2 => hnone i h2)
  · intro t iters c hok
    rw [hcompute] at hok
    exact etLoop_iters_le C (renormalizedPreTrust p) alpha epsilon nt maxIter
      maxIter _ (t, iters, c) hok

/-- Witness for C3: the symmetric 2-peer matrix converges at the very first
iteration, and the engine reports `(uniform, 1, True)`. -/
theorem C3_witness :
    compute_eigentrust [[(0 : ℚ), 1], [1, 0]] [1 / 2, 1 / 2] 2 (1 / 1000) "l1" (15 / 100) =
      .ok ([1 / 2, 1 / 2], 1, true) := by
  have h := (C3_compute_eigentrust [[(0 : ℚ), 1], [1, 0]] [1 / 2, 1 / 2] 2 (1 / 1000)
    "l1" (15 / 100) (by decide) (by decide) (Or.inl rfl)).1 0 (by omega)
    (by norm_num [convergesAt, check_convergence, renormalizedPreTrust, tSeq, etStep,
      etStepRaw, matTvec, dot, column, numCols, List.range_succ])
    (fun i hi => absurd hi (by omega))
  rw [h]
  norm_num [renormalizedPreTrust, tSeq, etStep, etStepRaw, matTvec, dot, column, numCols,
    List.range_succ]

/-! ## Non-negativity and sum invariants of the engine (claim C4) -/

theorem dot_nonneg : ∀ {u v : Vec}, (∀ x ∈ u, 0 ≤ x) → (∀ x ∈ v, 0 ≤ x) → 0 ≤ dot u v := by
  intro u
  induction u with
  | nil => intro v _ _; simp [dot]
  | cons a u ih =>
    intro v hu hv
    cases v with
    | nil => simp [dot]
    | cons b v =>
      have h1 : 0 ≤ a * b :=
        mul_nonneg (hu a (by simp)) (hv b (by simp))
      have h2 : 0 ≤ dot u v :=
        ih (fun x hx => hu x (by simp [hx])) (fun x hx => hv x (by simp [hx]))
      simpa [dot] using add_nonneg h1 h2

theorem column_nonneg {m : Mat} (hm : EntriesNonneg m) (j : ℕ) :
    ∀ x ∈ column m j, 0 ≤ x := by
  intro x hx
  simp only [column, List.mem_map] at hx
  obtain ⟨r, hr, rfl⟩ := hx
  rcases Nat.lt_or_ge j r.length with hlt | hge
  · rw [List.getD_eq_getElem _ _ hlt]
    exact hm r hr _ (List.getElem_mem hlt)
  · rw [List.getD_eq_default _ _ hge]

theorem matTvec_nonneg {m : Mat} {t : Vec} (hm : EntriesNonneg m)
    (ht : ∀ x ∈ t, 0 ≤ x) : ∀ x ∈ matTvec m t, 0 ≤ x := by
  intro x hx
  simp only [matTvec, List.mem_map] at hx
  obtain ⟨i, _, rfl⟩ := hx
  exact dot_nonneg (column_nonneg hm i) ht

theorem zipWith_add_nonneg : ∀ {a b : Vec}, (∀ x ∈ a, 0 ≤ x) → (∀ x ∈ b, 0 ≤ x) →
    ∀ x ∈ List.zipWith (fun u v => u + v) a b, 0 ≤ x := by
  intro a
  induction a with
  | nil => intro b _ _ x hx; simp at hx
  | cons u a ih =>
    intro b ha hb x hx
    cases b with
    | nil => simp at hx
    | cons v b =>
      simp only [List.zipWith_cons_cons, List.mem_cons] at hx
      rcases hx with rfl | hx
      · exact add_nonneg (ha u (by simp)) (hb v (by simp))
      · exact ih (fun y hy => ha y (by simp [hy])) (fun y hy => hb y (by simp [hy])) x hx

theorem etStepRaw_nonneg {C : Mat} {p : Vec} {alpha : ℚ} {t : Vec}
    (hC : EntriesNonneg C) (hp : ∀ x ∈ p, 0 ≤ x) (ha0 : 0 ≤ alpha) (ha1 : alpha ≤ 1)
    (ht : ∀ x ∈ t, 0 ≤ x) : ∀ x ∈ etStepRaw C p alpha t, 0 ≤ x := by
  refine zipWith_add_nonneg ?_ ?_
  · intro z hz
    simp only [List.mem_map] at hz
    obtain ⟨w, hw, rfl⟩ := hz
    exact mul_nonneg (by linarith) (matTvec_nonneg hC ht w hw)
  · intro z hz
    simp only [List.mem_map] at hz
    obtain ⟨w, hw, rfl⟩ := hz
    exact mul_nonneg ha0 (hp w hw)

theorem etStepRaw_sum_pos {C : Mat} {p : Vec} {alpha : ℚ} {t : Vec}
    (hsq : IsSquare C) (hC : EntriesNonneg C) (hplen : p.length = C.length)
    (hp : ∀ x ∈ p, 0 ≤ x) (hpsum : 0 < p.sum) (ha0 : 0 < alpha) (ha1 : alpha ≤ 1)
    (ht : ∀ x ∈ t, 0 ≤ x) : 0 < (etStepRaw C p alpha t).sum := by
  unfold etStepRaw
  rw [sum_zipWith_add _ _ (by simp [matTvec, numCols_eq_length hsq, hplen]),
    sum_map_mul, sum_map_mul]
  have h1 : 0 ≤ (1 - alpha) * (matTvec C t).sum :=
    mul_nonneg (by linarith) (List.sum_nonneg (matTvec_nonneg hC ht))
  have h2 : 0 < alpha * p.sum := mul_pos ha0 hpsum
  linarith

theorem etStep_nonneg {C : Mat} {p : Vec} {alpha : ℚ} {t : Vec}
    (hC : EntriesNonneg C) (hp : ∀ x ∈ p, 0 ≤ x) (ha0 : 0 ≤ alpha) (ha1 : alpha ≤ 1)
    (ht : ∀ x ∈ t, 0 ≤ x) : ∀ x ∈ etStep C p alpha t, 0 ≤ x := by
  intro x hx
  simp only [etStep, List.mem_map] at hx
  obtain ⟨y, hy, rfl⟩ := hx
  refine div_nonneg (etStepRaw_nonneg hC hp ha0 ha1 ht y hy) ?_
  exact List.sum_nonneg (etStepRaw_nonneg hC hp ha0 ha1 ht)

theorem etStep_sum_eq_one {C : Mat} {p : Vec} {alpha : ℚ} {t : Vec}
    (hsq : IsSquare C) (hC : EntriesNonneg C) (hplen : p.length = C.length)
    (hp : ∀ x ∈ p, 0 ≤ x) (hpsum : 0 < p.sum) (ha0 : 0 < alpha) (ha1 : alpha ≤ 1)
    (ht : ∀ x ∈ t, 0 ≤ x) : (etStep C p alpha t).sum = 1 := by
  unfold etStep
  rw [sum_map_div]
  exact div_self (ne_of_gt (etStepRaw_sum_pos hsq hC hplen hp hpsum ha0 ha1 ht))

theorem etLoop_ok_exists (C : Mat) (p : Vec) (alpha epsilon : ℚ) (nt : String)
    (maxIter : ℕ) (hsq : IsSquare C) (hplen : p.length = C.length)
    (hnt : nt = "l1" ∨ nt = "l2") :
    ∀ (fuel : ℕ) (t : Vec), t.length = C.length →
      ∃ r, etLoop C p alpha epsilon nt maxIter t fuel = .ok r := by
  intro fuel
  induction fuel with
  | zero => intro t _; exact ⟨_, rfl⟩
  | succ f ih =>
    intro t ht
    have hlen2 : (etStep C p alpha t).length = C.length := by
      rw [etStep_length, numCols_eq_length hsq, hplen, min_self]
    obtain ⟨st, hst⟩ := check_convergence_ok epsilon (ht.trans hlen2.symm) hnt
    rw [etLoop, hst]
    dsimp only
    by_cases hc : st.converged = true
    · rw [if_pos hc]; exact ⟨_, rfl⟩
    · rw [if_neg hc]; exact ih _ hlen2

theorem etLoop_ok_result (C : Mat) (p : Vec) (alpha epsilon : ℚ) (nt : String)
    (maxIter : ℕ) (hsq : IsSquare C) (hC : EntriesNonneg C)
    (hplen : p.length = C.length) (hp : ∀ x ∈ p, 0 ≤ x) (hpsum : 0 < p.sum)
    (ha0 : 0 < alpha) (ha1 : alpha ≤ 1) :
    ∀ (fuel : ℕ) (t : Vec), (∀ x ∈ t, 0 ≤ x) → (fuel = 0 → t.sum = 1) →
      ∀ r, etLoop C p alpha epsilon nt maxIter t fuel = .ok r →
        (∀ x ∈ r.1, 0 ≤ x) ∧ r.1.sum = 1 := by
  intro fuel
  induction fuel with
  | zero =>
    intro t htn hts r hr
    cases hr
    exact ⟨htn, hts rfl⟩
  | succ f ih =>
    intro t htn hts r hr
    rw [etLoop] at hr
    cases hck : check_convergence t (etStep C p alpha t) epsilon nt with
    | error e => rw [hck] at hr; cases hr
    | ok st =>
      rw [hck] at hr
      dsimp only at hr
      have hstepn := etStep_nonneg hC hp ha0.le ha1 htn
      have hsteps := etStep_sum_eq_one hsq hC hplen hp hpsum ha0 ha1 htn
      by_cases hc : st.converged = true
      · rw [if_pos hc] at hr
        cases hr
        exact ⟨hstepn, hsteps⟩
      · rw [if_neg hc] at hr
        exact ih _ hstepn (fun _ => hsteps) r hr

theorem renormalizedPreTrust_props {p : Vec} (hp : ∀ x ∈ p, 0 ≤ x)
    (hpsum : 0 < p.sum) :
    (∀ x ∈ renormalizedPreTrust p, 0 ≤ x) ∧ 0 < (renormalizedPreTrust p).sum ∧
      (renormalizedPreTrust p).length = p.length := by
  unfold renormalizedPreTrust
  by_cases h : |p.sum - 1| ≤ 1 / 1000000 + 1 / 100000
  · rw [if_pos h]
    exact ⟨hp, hpsum, rfl⟩
  · rw [if_neg h]
    refine ⟨?_, ?_, by simp⟩
    · intro x hx
      simp only [List.mem_map] at hx
      obtain ⟨y, hy, rfl⟩ := hx
      exact div_nonneg (hp y hy) hpsum.le
    · rw [sum_map_div, div_self (ne_of_gt hpsum)]
      norm_num

/-- Counterexample to claim C4 as stated: the matrix `[[1,1],[0,0]]` is
non-negative and column-stochastic, the pre-trust `[0,1]` is non-negative with
positive sum, and `alpha = 0` lies in `[0,1]`; yet the engine returns a trust
vector summing to `0`, not to `1` within 1e-6 (the damped update reaches the
zero vector, whose renormalization divides by zero — NaN in the float code). -/
theorem C4_counterexample :
    IsSquare [[(1 : ℚ), 1], [0, 0]] ∧
    EntriesNonneg [[(1 : ℚ), 1], [0, 0]] ∧
    colSum [[(1 : ℚ), 1], [0, 0]] 0 = 1 ∧ colSum [[(1 : ℚ), 1], [0, 0]] 1 = 1 ∧
    (∀ x ∈ ([0, 1] : Vec), 0 ≤ x) ∧ 0 < ([0, 1] : Vec).sum ∧
    ((0 : ℚ) ≤ 0 ∧ (0 : ℚ) ≤ 1) ∧
    compute_eigentrust [[(1 : ℚ), 1], [0, 0]] [0, 1] 2 (1 / 1000) "l1" 0 =
      .ok ([0, 0], 2, true) ∧
    ¬ |(([0, 0] : Vec).sum) - 1| ≤ 1 / 1000000 := by
  refine ⟨by decide, ?_, ?_, ?_, ?_, ?_, by norm_num, ?_, by norm_num⟩
  · norm_num [EntriesNonneg]
  · norm_num [colSum, column]
  · norm_num [colSum, column]
  · norm_num
  · norm_num
  · norm_num [compute_eigentrust, IsSquare, renormalizedPreTrust, etLoop, etStep,
      etStepRaw, check_convergence, matTvec, dot, column, numCols, List.range_succ]

/-- Claim C4, amended: the conclusion holds for every damping factor
`alpha ∈ (0, 1]` (not for `alpha = 0`, see the counterexample) and any
positive iteration budget: the returned vector is entrywise non-negative and
sums exactly to 1 (hence within 1e-6). -/
theorem C4_sum_one_nonneg (C : Mat) (p : Vec) (maxIter : ℕ) (epsilon : ℚ)
    (nt : String) (alpha : ℚ) (hsq : IsSquare C) (hC : EntriesNonneg C)
    (_hstoch : ∀ j, j < C.length → colSum C j = 1)
    (hplen : p.length = C.length) (hp : ∀ x ∈ p, 0 ≤ x) (hpsum : 0 < p.sum)
    (ha0 : 0 < alpha) (ha1 : alpha ≤ 1) (hmax : 1 ≤ maxIter)
    (hnt : nt = "l1" ∨ nt = "l2") :
    ∃ t iters c, compute_eigentrust C p maxIter epsilon nt alpha = .ok (t, iters, c) ∧
      (∀ x ∈ t, 0 ≤ x) ∧ t.sum = 1 ∧ |t.sum - 1| ≤ 1 / 1000000 := by
  obtain ⟨hp', hpsum', hplen'⟩ := renormalizedPreTrust_props hp hpsum
  have hcompute : compute_eigentrust C p maxIter epsilon nt alpha =
      etLoop C (renormalizedPreTrust p) alpha epsilon nt maxIter
        (renormalizedPreTrust p) maxIter := by
    unfold compute_eigentrust
    rw [if_neg (not_not_intro hsq), if_neg (by omega)]
  obtain ⟨r, hr⟩ := etLoop_ok_exists C (renormalizedPreTrust p) alpha epsilon nt
    maxIter hsq (hplen'.trans hplen) hnt maxIter
    (renormalizedPreTrust p) (hplen'.trans hplen)
  have hres := etLoop_ok_result C (renormalizedPreTrust p) alpha epsilon nt maxIter
    hsq hC (hplen'.trans hplen) hp' hpsum' ha0 ha1 maxIter
    (renormalizedPreTrust p) hp' (fun h0 => absurd h0 (by omega)) r hr
  refine ⟨r.1, r.2.1, r.2.2, ?_, hres.1, hres.2, by rw [hres.2]; norm_num⟩
  rw [hcompute, hr]

/-- Witness for the amended C4 at the symmetric 2-peer matrix with the default
damping factor. -/
theorem C4_witness :
    ∃ t iters c,
      compute_eigentrust [[(0 : ℚ), 1], [1, 0]] [1 / 2, 1 / 2] 1 (1 / 1000) "l1" (15 / 100) =
        .ok (t, iters, c) ∧
      (∀ x ∈ t, 0 ≤ x) ∧ t.sum = 1 ∧ |t.sum - 1| ≤ 1 / 1000000 :=
  C4_sum_one_nonneg [[(0 : ℚ), 1], [1, 0]] [1 / 2, 1 / 2] 1 (1 / 1000) "l1" (15 / 100)
    (by decide) (by norm_num [EntriesNonneg])
    (fun j hj => by
      have hj2 : j < 2 := by simpa using hj
      interval_cases j <;> norm_num [colSum, column])
    (by decide) (by norm_num) (by norm_num) (by norm_num) (by norm_num) (by omega)
    (Or.inl rfl)

/-! ## The TrustScores constructor (claim C5) -/

/-- Claim C5: the `TrustScores` constructor errors exactly when the scores do
not sum to 1 within 1e-6, or some score is negative, or `converged` is set
while `final_delta ≥ convergence_epsilon`; on all other argument combinations
it constructs the value with exactly the given fields. -/
theorem C5_trust_scores_make (scores : List (String × ℚ)) (iteration_count : ℕ)
    (converged : Bool) (convergence_epsilon final_delta : ℚ) :
    ((∃ e, TrustScores.make scores iteration_count converged convergence_epsilon
        final_delta = .error e) ↔
      (1 / 1000000 < |(scores.map Prod.snd).sum - 1| ∨ (∃ s ∈ scores, s.2 < 0) ∨
        (converged = true ∧ convergence_epsilon ≤ final_delta))) ∧
    (¬ 1 / 1000000 < |(scores.map Prod.snd).sum - 1| →
      ¬ (∃ s ∈ scores, s.2 < 0) →
      ¬ (converged = true ∧ convergence_epsilon ≤ final_delta) →
      TrustScores.make scores iteration_count converged convergence_epsilon final_delta =
        .ok ⟨scores, iteration_count, converged, convergence_epsilon, final_delta⟩) := by
  unfold TrustScores.make
  constructor
  · constructor
    · rintro ⟨e, he⟩
      by_cases h1 : |(scores.map Prod.snd).sum - 1| > 1 / 1000000
      · exact Or.inl h1
      rw [if_neg h1] at he
      by_cases h2 : scores.any (fun p => decide (p.2 < 0)) = true
      · refine Or.inr (Or.inl ?_)
        simpa using h2
      rw [if_neg h2] at he
      by_cases h3 : (converged && decide (convergence_epsilon ≤ final_delta)) = true
      · refine Or.inr (Or.inr ?_)
        simpa [Bool.and_eq_true] using h3
      rw [if_neg h3] at he
      cases he
    · intro h
      by_cases h1 : |(scores.map Prod.snd).sum - 1| > 1 / 1000000
      · rw [if_pos h1]; exact ⟨_, rfl⟩
      rw [if_neg h1]
      by_cases h2 : scores.any (fun p => decide (p.2 < 0)) = true
      · rw [if_pos h2]; exact ⟨_, rfl⟩
      rw [if_neg h2]
      by_cases h3 : (converged && decide (convergence_epsilon ≤ final_delta)) = true
      · rw [if_pos h3]; exact ⟨_, rfl⟩
      rw [if_neg h3]
      exfalso
      rcases h with h | h | h
      · exact h1 h
      · exact h2 (by simpa using h)
      · exact h3 (by simp [Bool.and_eq_true]; exact ⟨h.1, h.2⟩)
  · intro hn1 hn2 hn3
    rw [if_neg hn1, if_neg ?_, if_neg ?_]
    · intro h
      exact hn3 (by simpa [Bool.and_eq_true] using h)
    · intro h
      exact hn2 (by simpa using h)

/-- Witness for C5: a consistent argument combination constructs normally. -/
theorem C5_witness :
    TrustScores.make [("a", 1)] 3 true 1 0 = .ok ⟨[("a", 1)], 3, true, 1, 0⟩ :=
  (C5_trust_scores_make [("a", 1)] 3 true 1 0).2 (by norm_num) (by norm_num)
    (by norm_num)

/-! ## The convergence checker (claim C6) -/

/-- Claim C6: on equal-length vectors `check_convergence` returns the chosen
norm of `t_new - t_old` as `delta` (for `"l2"`, the code's float `delta` is
`Real.sqrt` of the stored square) and `converged = (delta < epsilon)`; on
mismatched lengths it errors.  Purity (neither input mutated) is inherent to
the embedding. -/
theorem C6_check_convergence (t_old t_new : Vec) (epsilon : ℚ)
    (hlen : t_old.length = t_new.length) :
    (∃ st, check_convergence t_old t_new epsilon "l1" = .ok st ∧
      st.delta = ((List.zipWith (fun a b => a - b) t_new t_old).map (fun x => |x|)).sum ∧
      (st.converged = true ↔ st.delta < epsilon)) ∧
    (∃ st, check_convergence t_old t_new epsilon "l2" = .ok st ∧
      st.delta = ((List.zipWith (fun a b => a - b) t_new t_old).map (fun x => x ^ 2)).sum ∧
      (st.converged = true ↔ Real.sqrt (st.delta : ℝ) < (epsilon : ℝ))) ∧
    (∀ (u v : Vec) (nt : String), u.length ≠ v.length →
      ∃ e, check_convergence u v epsilon nt = .error e) := by
  refine ⟨?_, ?_, ?_⟩
  · unfold check_convergence
    rw [if_neg (by omega), if_pos rfl]
    exact ⟨_, rfl, rfl, by simp⟩
  · unfold check_convergence
    rw [if_neg (by omega), if_neg (by decide), if_pos rfl]
    refine ⟨_, rfl, rfl, ?_⟩
    have hS : (0 : ℚ) ≤
        ((List.zipWith (fun a b => a - b) t_new t_old).map (fun x => x ^ 2)).sum := by
      apply List.sum_nonneg
      intro x hx
      simp only [List.mem_map] at hx
      obtain ⟨y, _, rfl⟩ := hx
      exact sq_nonneg y
    simp only [decide_eq_true_eq]
    constructor
    · rintro ⟨hε, hlt⟩
      refine (Real.sqrt_lt' (by exact_mod_cast hε)).mpr ?_
      exact_mod_cast hlt
    · intro h
      have hε : (0 : ℝ) < (epsilon : ℝ) := lt_of_le_of_lt (Real.sqrt_nonneg _) h
      have hlt := (Real.sqrt_lt' hε).mp h
      exact ⟨by exact_mod_cast hε, by exact_mod_cast hlt⟩
  · intro u v nt hne
    unfold check_convergence
    rw [if_pos hne]
    exact ⟨_, rfl⟩

/-- Witness for C6 at the concrete pair `[0,1]`, `[1,0]` with `epsilon = 1/2`. -/
theorem C6_witness :
    (∃ st, check_convergence [0, 1] [1, 0] (1 / 2) "l1" = .ok st ∧
      st.delta = ((List.zipWith (fun a b => a - b) [1, 0] [0, 1]).map
        (fun x => |x|)).sum ∧
      (st.converged = true ↔ st.delta < 1 / 2)) ∧
    (∃ st, check_convergence [0, 1] [1, 0] (1 / 2) "l2" = .ok st ∧
      st.delta = ((List.zipWith (fun a b => a - b) [1, 0] [0, 1]).map
        (fun x => x ^ 2)).sum ∧
      (st.converged = true ↔ Real.sqrt (st.delta : ℝ) < ((1 / 2 : ℚ) : ℝ))) ∧
    (∀ (u v : Vec) (nt : String), u.length ≠ v.length →
      ∃ e, check_convergence u v (1 / 2) nt = .error e) :=
  C6_check_convergence [0, 1] [1, 0] (1 / 2) rfl

/-! ## Deriving local trust from interactions (claim C7) -/

theorem countP_not_add {α : Type} (l : List α) (q : α → Bool) :
    l.countP (fun a => !(q a)) + l.countP q = l.length := by
  induction l with
  | nil => simp
  | cons x xs ih =>
    by_cases h : q x = true <;> simp [List.countP_cons, h] <;> omega

theorem countP_eq_one_of_nodup_mem {l : List String} {a : String} (h : l.Nodup)
    (hm : a ∈ l) : l.countP (fun s => decide (s = a)) = 1 := by
  induction l with
  | nil => cases hm
  | cons b l ih =>
    rw [List.countP_cons]
    rcases List.mem_cons.mp hm with rfl | hm'
    · have ha : a ∉ l := (List.nodup_cons.mp h).1
      have h0 : l.countP (fun s => decide (s = a)) = 0 := by
        apply List.countP_eq_zero.mpr
        intro s hs
        simp only [decide_eq_true_eq]
        rintro rfl
        exact ha hs
      simp [h0]
    · have hb : ¬(b = a) := by
        rintro rfl
        exact (List.nodup_cons.mp h).1 hm'
      have := ih (List.nodup_cons.mp h).2 hm'
      simp [this, hb]

theorem other_peers_length {peers : List Peer} {peer : Peer} (hmem : peer ∈ peers)
    (hnodup : (peers.map Peer.peer_id).Nodup) :
    (peers.filter (fun p => decide (p.peer_id ≠ peer.peer_id))).length + 1 =
      peers.length := by
  rw [← List.countP_eq_length_filter]
  have hne_eq : (fun (p : Peer) => decide (p.peer_id ≠ peer.peer_id)) =
      (fun p => !(decide (p.peer_id = peer.peer_id))) := by
    funext p
    simp [decide_not]
  rw [hne_eq]
  have h1 : peers.countP (fun p => decide (p.peer_id = peer.peer_id)) = 1 := by
    have hmap : (peers.map Peer.peer_id).countP (fun s => decide (s = peer.peer_id)) =
        peers.countP (fun p => decide (p.peer_id = peer.peer_id)) :=
      List.countP_map _ _ _
    rw [← hmap]
    exact countP_eq_one_of_nodup_mem hnodup (List.mem_map_of_mem _ hmem)
  have hsplit := countP_not_add peers (fun p => decide (p.peer_id = peer.peer_id))
  omega

theorem targetsOf_ne_nil {l : List Interaction} (h : l ≠ []) : targetsOf l ≠ [] := by
  unfold targetsOf
  intro hc
  exact h (List.map_eq_nil_iff.mp ((List.dedup_eq_nil _).mp hc))

/-- Claim C7: deriving a peer's local trust from the interaction log.
(a) With at least one interaction and a positive sum of per-target success
rates, each interacted target `t` receives exactly
`successRate t / (sum of rates)` — trust proportional to its success rate —
and the values sum to 1.  (b) With no interactions, every other peer receives
uniform trust `1/(N-1)`.  (c) With interactions that all failed, the
interacted targets receive uniform positive trust `1/#targets` — the row is
not left all-zero. -/
theorem C7_update_local_trust (peer : Peer) (peers : List Peer)
    (interactions : List Interaction) (hmem : peer ∈ peers)
    (hnodup : (peers.map Peer.peer_id).Nodup) :
    (peerInteractions interactions peer.peer_id ≠ [] →
      0 < ((targetsOf (peerInteractions interactions peer.peer_id)).map
          (successRate (peerInteractions interactions peer.peer_id))).sum →
      update_local_trust_from_interactions peer peers interactions =
        (targetsOf (peerInteractions interactions peer.peer_id)).map
          (fun t => (t, successRate (peerInteractions interactions peer.peer_id) t /
            ((targetsOf (peerInteractions interactions peer.peer_id)).map
              (successRate (peerInteractions interactions peer.peer_id))).sum)) ∧
      ((update_local_trust_from_interactions peer peers interactions).map
        Prod.snd).sum = 1) ∧
    (peerInteractions interactions peer.peer_id = [] → 2 ≤ peers.length →
      update_local_trust_from_interactions peer peers interactions =
        (peers.filter (fun p => decide (p.peer_id ≠ peer.peer_id))).map
          (fun p => (p.peer_id, (1 : ℚ) / ((peers.length - 1 : ℕ) : ℚ)))) ∧
    (peerInteractions interactions peer.peer_id ≠ [] →
      ((targetsOf (peerInteractions interactions peer.peer_id)).map
          (successRate (peerInteractions interactions peer.peer_id))).sum = 0 →
      update_local_trust_from_interactions peer peers interactions =
        (targetsOf (peerInteractions interactions peer.peer_id)).map
          (fun t => (t, (1 : ℚ) /
            ((targetsOf (peerInteractions interactions peer.peer_id)).length : ℚ))) ∧
      update_local_trust_from_interactions peer peers interactions ≠ [] ∧
      ∀ e ∈ update_local_trust_from_interactions peer peers interactions, 0 < e.2) := by
  refine ⟨?_, ?_, ?_⟩
  · intro hne hpos
    have hsum_eq : (((targetsOf (peerInteractions interactions peer.peer_id)).map
        (fun t => (t, successRate (peerInteractions interactions peer.peer_id) t))).map
          Prod.snd).sum =
        ((targetsOf (peerInteractions interactions peer.peer_id)).map
          (successRate (peerInteractions interactions peer.peer_id))).sum := by
      rw [List.map_map]
      rfl
    have hres : update_local_trust_from_interactions peer peers interactions =
        (targetsOf (peerInteractions interactions peer.peer_id)).map
          (fun t => (t, successRate (peerInteractions interactions peer.peer_id) t /
            ((targetsOf (peerInteractions interactions peer.peer_id)).map
              (successRate (peerInteractions interactions peer.peer_id))).sum)) := by
      unfold update_local_trust_from_interactions
      rw [if_neg hne, if_pos (by rw [hsum_eq]; exact hpos), List.map_map]
      apply List.map_congr_left
      intro t _
      simp only [Function.comp]
      rw [hsum_eq]
    refine ⟨hres, ?_⟩
    rw [hres, List.map_map]
    have : (Prod.snd ∘ fun t =>
        (t, successRate (peerInteractions interactions peer.peer_id) t /
          ((targetsOf (peerInteractions interactions peer.peer_id)).map
            (successRate (peerInteractions interactions peer.peer_id))).sum)) =
        (fun t => successRate (peerInteractions interactions peer.peer_id) t /
          ((targetsOf (peerInteractions interactions peer.peer_id)).map
            (successRate (peerInteractions interactions peer.peer_id))).sum) := rfl
    rw [this]
    have hmm : (targetsOf (peerInteractions interactions peer.peer_id)).map
        (fun t => successRate (peerInteractions interactions peer.peer_id) t /
          ((targetsOf (peerInteractions interactions peer.peer_id)).map
            (successRate (peerInteractions interactions peer.peer_id))).sum) =
        ((targetsOf (peerInteractions interactions peer.peer_id)).map
          (successRate (peerInteractions interactions peer.peer_id))).map
          (fun x => x / ((targetsOf (peerInteractions interactions peer.peer_id)).map
            (successRate (peerInteractions interactions peer.peer_id))).sum) := by
      rw [List.map_map]
      rfl
    rw [hmm, sum_map_div]
    exact div_self (ne_of_gt hpos)
  · intro hnil hn
    unfold update_local_trust_from_interactions
    rw [if_pos hnil]
    have hlen := other_peers_length hmem hnodup
    have hne : peers.filter (fun p => decide (p.peer_id ≠ peer.peer_id)) ≠ [] := by
      intro hc
      rw [hc] at hlen
      simp at hlen
      omega
    rw [if_neg hne, hlen.symm]
    simp
  · intro hne hzero
    have hzero' : (((targetsOf (peerInteractions interactions peer.peer_id)).map
        (fun t => (t, successRate (peerInteractions interactions peer.peer_id) t))).map
          Prod.snd).sum = 0 := by
      rw [List.map_map]
      exact hzero
    have hres : update_local_trust_from_interactions peer peers interactions =
        (targetsOf (peerInteractions interactions peer.peer_id)).map
          (fun t => (t, (1 : ℚ) /
            ((targetsOf (peerInteractions interactions peer.peer_id)).length : ℚ))) := by
      unfold update_local_trust_from_interactions
      rw [if_neg hne, if_neg (by rw [hzero']; exact lt_irrefl 0), List.length_map,
        List.map_map]
      rfl
    have htg := targetsOf_ne_nil hne
    have hlenpos : 0 < ((targetsOf (peerInteractions interactions peer.peer_id)).length : ℚ) := by
      have := List.length_pos.mpr htg
      exact_mod_cast this
    refine ⟨hres, ?_, ?_⟩
    · rw [hres]
      simpa using htg
    · intro e he
      rw [hres] at he
      simp only [List.mem_map] at he
      obtain ⟨t, _, rfl⟩ := he
      exact div_pos one_pos hlenpos

/-- Witness for C7: one successful interaction `A → B` gives `B` the full
normalized trust. -/
theorem C7_witness :
    update_local_trust_from_interactions ⟨"A", 0, 0, none, []⟩
      [⟨"A", 0, 0, none, []⟩, ⟨"B", 0, 0, none, []⟩]
      [⟨"A", "B", InteractionOutcome.SUCCESS⟩] = [("B", 1)] := by
  have h := (C7_update_local_trust ⟨"A", 0, 0, none, []⟩
    [⟨"A", 0, 0, none, []⟩, ⟨"B", 0, 0, none, []⟩]
    [⟨"A", "B", InteractionOutcome.SUCCESS⟩] (by simp) (by simp)).1
    (by simp [peerInteractions])
    (by norm_num [peerInteractions, targetsOf, successRate, successCount, totalCount,
      List.dedup_cons_of_not_mem])
  rw [h.1]
  norm_num [peerInteractions, targetsOf, successRate, successCount, totalCount,
    List.dedup_cons_of_not_mem]

/-! ## Orphan references (claim C8) -/

theorem buildRow_foldl_filter (idIndex : String → Option ℕ) :
    ∀ (entries : List (String × ℚ)) (row : Vec),
      entries.foldl (fun row e =>
        match idIndex e.1 with
        | some j => row.set j e.2
        | none => row) row =
      (entries.filter (fun e => (idIndex e.1).isSome)).foldl (fun row e =>
        match idIndex e.1 with
        | some j => row.set j e.2
        | none => row) row := by
  intro entries
  induction entries with
  | nil => intro row; rfl
  | cons e rest ih =>
    intro row
    cases he : idIndex e.1 with
    | some j =>
      rw [List.foldl_cons, List.filter_cons_of_pos (by simp [he]), List.foldl_cons]
      simp only [he]
      exact ih _
    | none =>
      rw [List.foldl_cons, List.filter_cons_of_neg (by simp [he])]
      simp only [he]
      exact ih _

/-- Counterexample to claim C8 as stated: peer `A`'s local trust names the
unknown peer `C`, yet `_build_trust_matrix` succeeds (no orphan-reference
error) and the entry `("C", 1)` simply vanishes — row `A` of the matrix is all
zeros.  The observation is silently dropped. -/
theorem C8_counterexample :
    build_trust_matrix [⟨"A", 0, 0, none, [("C", 1)]⟩, ⟨"B", 0, 0, none, [("A", 1)]⟩]
      [] =
      .ok ([⟨"A", 0, 0, none, [("C", 1)]⟩, ⟨"B", 0, 0, none, [("A", 1)]⟩],
        [[0, 0], [1, 0]]) := by
  simp [build_trust_matrix, buildRow, idIndexOf, EntriesNonneg,
    List.replicate, List.nodup_cons]

/-- Claim C8, amended: `add_interaction` rejects exactly the interactions
whose source or target id is unknown, leaving the simulation unchanged, and
appends otherwise; but trust-matrix row construction SILENTLY skips
local-trust entries whose target id is not in the peer mapping (removing those
entries changes nothing, and no error is raised — see the counterexample). -/
theorem C8_orphan_handling :
    (∀ (sim : Simulation) (i : Interaction),
      ((i.source_peer_id ∉ sim.peers.map Peer.peer_id ∨
        i.target_peer_id ∉ sim.peers.map Peer.peer_id) ↔
        ∃ e, sim.add_interaction i = .error e)) ∧
    (∀ (sim : Simulation) (i : Interaction) (sim' : Simulation),
      sim.add_interaction i = .ok sim' →
        sim'.peers = sim.peers ∧ sim'.state = sim.state ∧
        sim'.interactions = sim.interactions ++ [i]) ∧
    (∀ (n : ℕ) (idIndex : String → Option ℕ) (entries : List (String × ℚ)),
      buildRow n idIndex entries =
        buildRow n idIndex (entries.filter (fun e => (idIndex e.1).isSome))) := by
  refine ⟨?_, ?_, ?_⟩
  · intro sim i
    unfold Simulation.add_interaction
    constructor
    · intro h
      by_cases hs : i.source_peer_id ∈ sim.peers.map Peer.peer_id
      · have ht : i.target_peer_id ∉ sim.peers.map Peer.peer_id := by tauto
        rw [if_neg (not_not_intro hs), if_pos ht]
        exact ⟨_, rfl⟩
      · rw [if_pos hs]
        exact ⟨_, rfl⟩
    · rintro ⟨e, he⟩
      by_cases hs : i.source_peer_id ∈ sim.peers.map Peer.peer_id
      · by_cases ht : i.target_peer_id ∈ sim.peers.map Peer.peer_id
        · rw [if_neg (not_not_intro hs), if_neg (not_not_intro ht)] at he
          cases he
        · exact Or.inr ht
      · exact Or.inl hs
  · intro sim i sim' h
    unfold Simulation.add_interaction at h
    by_cases hs : i.source_peer_id ∈ sim.peers.map Peer.peer_id
    · by_cases ht : i.target_peer_id ∈ sim.peers.map Peer.peer_id
      · rw [if_neg (not_not_intro hs), if_neg (not_not_intro ht)] at h
        cases h
        exact ⟨rfl, rfl, rfl⟩
      · rw [if_neg (not_not_intro hs), if_pos ht] at h
        cases h
    · rw [if_pos hs] at h
      cases h
  · intro n idIndex entries
    unfold buildRow
    exact buildRow_foldl_filter idIndex entries (List.replicate n 0)

/-- Witness for the amended C8: an interaction toward the unknown peer `X` is
rejected. -/
theorem C8_witness :
    ∃ e, Simulation.add_interaction
      ⟨SimulationState.CREATED, [⟨"A", 0, 0, none, []⟩], []⟩
      ⟨"A", "X", InteractionOutcome.SUCCESS⟩ = .error e :=
  (C8_orphan_handling.1 _ _).mp (Or.inr (by simp))

/-! ## Determinism of the interaction simulator (claim C9) -/

/-- Claim C9: two calls of `simulate_interactions` with identical peers,
count and selection mode and the same non-None seed produce identical
`(source, target, outcome)` sequences, whatever the prior generator states
were (the seed call discards them). -/
theorem C9_simulate_deterministic {S : Type} (g : RandomGen S) (peers : List Peer)
    (num_interactions : ℕ) (k : Int) (use_pref : Bool) (s₁ s₂ : S)
    (hpeers : 2 ≤ peers.length) :
    ∃ triples stA stB,
      simulate_interactions g peers num_interactions (some k) use_pref s₁ =
        .ok (triples, stA) ∧
      simulate_interactions g peers num_interactions (some k) use_pref s₂ =
        .ok (triples, stB) := by
  unfold simulate_interactions
  rw [if_neg (show ¬(peers.length < 2) by omega)]
  exact ⟨_, _, _, rfl, rfl⟩

/-- Witness for C9: two concrete runs from different generator states. -/
theorem C9_witness :
    ∃ triples stA stB,
      simulate_interactions lcgGen [⟨"A", 0, 0, none, []⟩, ⟨"B", 0, 0, none, []⟩] 3
        (some 42) true 0 = .ok (triples, stA) ∧
      simulate_interactions lcgGen [⟨"A", 0, 0, none, []⟩, ⟨"B", 0, 0, none, []⟩] 3
        (some 42) true 999 = .ok (triples, stB) :=
  C9_simulate_deterministic lcgGen _ 3 42 true 0 999 (by norm_num)

/-! ## The TrustMatrix normalization method (claim C10) -/

/-- Claim C10: on a `TrustMatrix`'s stored matrix (square and non-negative by
its constructor), the method `TrustMatrix.normalize_columns` raises
`ValueError` whenever some column sums to zero (its post-normalization
`torch.allclose` verification requires every column to sum to 1), and any
matrix it does return has no all-zero column — so zero-column preservation is
provided only by the free function `normalize_columns`. -/
theorem C10_trust_matrix_normalize (m : Mat) (hsq : IsSquare m)
    (hn : EntriesNonneg m) :
    ((∃ j, j < m.length ∧ colSum m j = 0) →
      ∃ e, TrustMatrix.normalize_columns m = .error e) ∧
    (∀ m', TrustMatrix.normalize_columns m = .ok m' →
      ∀ j, j < m.length → ∃ x ∈ column m' j, x ≠ 0) := by
  constructor
  · rintro ⟨j, hj, hz⟩
    unfold TrustMatrix.normalize_columns
    rw [if_neg ?_]
    · exact ⟨_, rfl⟩
    · intro hall
      rw [List.all_eq_true] at hall
      have hjr : j ∈ List.range (numCols m) :=
        List.mem_range.mpr (by rw [numCols_eq_length hsq]; exact hj)
      have hthis := hall j hjr
      rw [decide_eq_true_eq] at hthis
      have hcol := column_map_zipWith_div hsq hj
      have hadj : (adjustedColSums m).getD j 0 = 1 := by
        rw [adjustedColSums_getD m (by rw [numCols_eq_length hsq]; exact hj)]
        exact if_pos hz
      have hzero : colSum (m.map (fun row => List.zipWith (fun x s => x / s) row
          (adjustedColSums m))) j = 0 := by
        unfold colSum
        rw [hcol, hadj, sum_map_div]
        unfold colSum at hz
        rw [hz]
        norm_num
      rw [hzero] at hthis
      norm_num at hthis
  · intro m' hok j hj
    rw [show TrustMatrix.normalize_columns m =
        (if (List.range (numCols m)).all (fun j =>
            decide (|colSum (m.map (fun row => List.zipWith (fun x s => x / s) row
              (adjustedColSums m))) j - 1| ≤ 1 / 1000000 + 1 / 100000)) then
          .ok (m.map (fun row => List.zipWith (fun x s => x / s) row (adjustedColSums m)))
        else .error "Matrix normalization failed: columns do not sum to 1.0")
      from rfl] at hok
    split_ifs at hok with hall
    · injection hok with hok'
      subst hok'
      rw [List.all_eq_true] at hall
      have hjr : j ∈ List.range (numCols m) :=
        List.mem_range.mpr (by rw [numCols_eq_length hsq]; exact hj)
      have hb := hall j hjr
      rw [decide_eq_true_eq] at hb
      by_contra hc
      push_neg at hc
      have hsum0 : colSum (m.map (fun row => List.zipWith (fun x s => x / s) row
          (adjustedColSums m))) j = 0 := List.sum_eq_zero hc
      rw [hsum0] at hb
      norm_num at hb

/-- Witness for C10 at the matrix `[[1,0],[3,0]]`, whose column 1 is zero. -/
theorem C10_witness :
    ((∃ j, j < 2 ∧ colSum [[(1 : ℚ), 0], [3, 0]] j = 0) →
      ∃ e, TrustMatrix.normalize_columns [[(1 : ℚ), 0], [3, 0]] = .error e) ∧
    (∀ m', TrustMatrix.normalize_columns [[(1 : ℚ), 0], [3, 0]] = .ok m' →
      ∀ j, j < 2 → ∃ x ∈ column m' j, x ≠ 0) :=
  C10_trust_matrix_normalize [[(1 : ℚ), 0], [3, 0]] (by decide)
    (by norm_num [EntriesNonneg])

/-! ## The `run_algorithm` pipeline (claim C1) -/

/-- Claim C1 describes the intended pipeline, but the code is buggy: on the
simplest valid input — a 2-peer cold-start simulation (no local trust, no
interactions) — the engine converges at iteration 1, `run_algorithm` then sets
`final_delta` to the sentinel `1.0` (because `iterations > 1` is false; for
later convergence it uses the distance from the PRE-TRUST vector instead of
the last iterate), and the `TrustScores` constructor rejects
`converged=True ∧ final_delta ≥ epsilon`, so the run raises and the state
becomes FAILED instead of COMPLETED.  This contradicts `TrustScores`'s own
docstring ("final_delta: Change in last iteration") and the repository's
integration tests, which expect exactly this input to complete with
`converged=True`. -/
theorem C1_run_algorithm_cold_start_fails :
    (Simulation.run_algorithm ⟨SimulationState.CREATED,
      [⟨"A", 0, 0, none, []⟩, ⟨"B", 0, 0, none, []⟩], []⟩ 2 (1 / 1000)).1.state =
      SimulationState.FAILED ∧
    ∃ e, (Simulation.run_algorithm ⟨SimulationState.CREATED,
      [⟨"A", 0, 0, none, []⟩, ⟨"B", 0, 0, none, []⟩], []⟩ 2 (1 / 1000)).2 =
        .error e := by
  have h1 : build_trust_matrix [⟨"A", 0, 0, none, []⟩, ⟨"B", 0, 0, none, []⟩] [] =
      .ok ([⟨"A", 0, 0, none, [("B", 1)]⟩, ⟨"B", 0, 0, none, [("A", 1)]⟩],
        [[0, 1], [1, 0]]) := by
    simp [build_trust_matrix, update_local_trust_from_interactions, peerInteractions,
      buildRow, idIndexOf, EntriesNonneg, List.replicate]
  have h2 : normalize_columns [[(0 : ℚ), 1], [1, 0]] = .ok [[0, 1], [1, 0]] := by
    simp [normalize_columns, adjustedColSums, colSum, column, numCols, List.range_succ]
  have h3 : compute_eigentrust [[(0 : ℚ), 1], [1, 0]] (List.replicate 2 ((1 : ℚ) / 2))
      2 (1 / 1000) "l1" (3 / 20) = .ok ([1 / 2, 1 / 2], 1, true) := by
    norm_num [compute_eigentrust, IsSquare, renormalizedPreTrust, etLoop, etStep,
      etStepRaw, check_convergence, matTvec, dot, column, numCols, List.range_succ,
      List.replicate]
  have h4 : TrustScores.make [("A", (1 : ℚ) / 2), ("B", 1 / 2)] 1 true (1 / 1000) 1 =
      .error "Convergence inconsistency: marked converged but delta >= epsilon" := by
    norm_num [TrustScores.make]
  have hrun : (Simulation.run_algorithm ⟨SimulationState.CREATED,
      [⟨"A", 0, 0, none, []⟩, ⟨"B", 0, 0, none, []⟩], []⟩ 2 (1 / 1000)) =
      (⟨SimulationState.FAILED, [⟨"A", 0, 0, none, []⟩, ⟨"B", 0, 0, none, []⟩], []⟩,
        .error "Convergence inconsistency: marked converged but delta >= epsilon") := by
    simp only [Simulation.run_algorithm]
    norm_num [h1, h2, h3, h4, List.enum, List.enumFrom, List.lookup]
  rw [hrun]
  exact ⟨rfl, _, rfl⟩

end EigenTrust
